import Mathlib

/-!
Shallow embedding of the node-monitoring core of `nodes/nodes.go`.

Modelling conventions:
* `common.Hash` values are abstract and appear only via equality tests, so a
  hash is modelled as a `Nat` (the all-zero `common.Hash{}` is `0`).
* Go `uint64` block numbers are `Nat` taken modulo `2 ^ 64` where the Go code
  can overflow (`h.Number.Uint64()`, and the wrapping decrement `num - 1`).
* The JSON-RPC backend is an oracle `Provider`: a function from the index of
  the outbound header call (the node's running call counter) and the requested
  height (`none` encodes the Go `nil` big-int, i.e. "latest") to a response.
  A response is a transport error, a `nil` header, or a header.  Cancellation
  via the caller's context surfaces in Go as an error returned by
  `HeaderByNumber` / `CallContext`, so it is the `err` response here.
* `time.Now()` is passed in explicitly (seconds, as `Int`).
* The `for parentInfo != nil` loop of `fetchHeader` is modelled with explicit
  fuel; the loop result records whether the loop exited through one of its own
  exits (`walkExited = true`) rather than by exhausting fuel, so termination
  of the Go loop is the statement that some concrete fuel always suffices.
* The node's map `chainHistory` (Go `map[uint64]*blockInfo`) is an
  association list with replace-on-insert; the external `blockDB` is a write
  log; the gauge keeps the last value written to it.
-/

namespace NodeMonitor

/-- `2 ^ 64`, the size of the Go `uint64` type. -/
def U64 : Nat := 2 ^ 64

/-- Go `uint64` decrement `n - 1` with wraparound at `0`. -/
def sub1 (n : Nat) : Nat := if n = 0 then U64 - 1 else n - 1

/-- Go `int64(u)` conversion of a `uint64` value `n < 2 ^ 64`. -/
def int64OfUInt64 (n : Nat) : Int :=
  if n < 2 ^ 63 then (n : Int) else (n : Int) - (2 ^ 64 : Int)

/-- Go `uint64(i)` conversion of an `int` value (wraps modulo `2 ^ 64`). -/
def uint64OfInt (i : Int) : Nat := (i % (U64 : Int)).toNat

/-- Go struct `blockInfo`: number, hash, parent hash of a fetched header. -/
structure BlockInfo where
  num : Nat
  hash : Nat
  pHash : Nat
deriving DecidableEq

/-- A raw header as delivered by `ethclient.HeaderByNumber`: its (big-int)
number, its hash `h.Hash()`, and its `ParentHash`. -/
structure Header where
  number : Nat
  hash : Nat
  parentHash : Nat
deriving DecidableEq

/-- The two failure modes of `throttledGetHeader`: an RPC/transport error
(which is also how a cancelled context surfaces), or a `nil` header. -/
inductive FetchError where
  | rpc : FetchError
  | empty : FetchError
deriving DecidableEq

/-- One oracle response of the RPC backend for a header request. -/
inductive FetchResp where
  | err : FetchResp
  | nilHeader : FetchResp
  | ok : Header → FetchResp
deriving DecidableEq

/-- The RPC backend: response as a function of the node's outbound header-call
index and the requested height (`none` = Go `nil`, i.e. "latest"). -/
abbrev Provider := Nat → Option Nat → FetchResp

instance instDecEqExcept {ε α : Type} [DecidableEq ε] [DecidableEq α] :
    DecidableEq (Except ε α) := fun a b =>
  match a, b with
  | .ok x, .ok y => if h : x = y then .isTrue (by rw [h]) else .isFalse (by simp [h])
  | .error x, .error y => if h : x = y then .isTrue (by rw [h]) else .isFalse (by simp [h])
  | .ok _, .error _ => .isFalse (by simp)
  | .error _, .ok _ => .isFalse (by simp)

/-- The per-node chain history, Go `map[uint64]*blockInfo`, as an association
list from block number to `blockInfo`. -/
abbrev Hist := List (Nat × BlockInfo)

/-- Map lookup `chainHistory[k]` (first matching entry). -/
def histFind (h : Hist) (k : Nat) : Option BlockInfo :=
  match h.find? (fun p => p.1 == k) with
  | some p => some p.2
  | none => none

/-- Map write `chainHistory[k] = v` (replaces any entry at `k`). -/
def histInsert (h : Hist) (k : Nat) (v : BlockInfo) : Hist :=
  (k, v) :: h.filter (fun p => p.1 != k)

/-- Map delete `delete(chainHistory, k)`. -/
def histErase (h : Hist) (k : Nat) : Hist :=
  h.filter (fun p => p.1 != k)

/-- Whether height `k` is resident in the chain history. -/
def histMem (h : Hist) (k : Nat) : Bool := (histFind h k).isSome

/-- The mutable state of one `RPCNode`, plus observability counters for the
number of outbound header calls and version calls. -/
structure NodeState where
  version : String
  latest : Option BlockInfo
  chainHistory : Hist
  db : List (Nat × Header)
  status : Nat
  lastProgress : Int
  lastCheckVersion : Option Int
  headGauge : Option Int
  calls : Nat
  versionCalls : Nat
deriving DecidableEq

/-- The state of a node fresh out of `NewRPCNode`: version `"n/a"`, empty
chain history, empty `lastCheck` map, zero-valued everything else. -/
def initialNode : NodeState :=
  { version := "n/a", latest := none, chainHistory := [], db := [],
    status := 0, lastProgress := 0, lastCheckVersion := none,
    headGauge := none, calls := 0, versionCalls := 0 }

/-- The condition under which `Version` issues a network call: Go skips the
call when `time.Since(node.lastCheck[method]) < 30s`.  A missing `lastCheck`
entry is Go's zero `time.Time`, for which `time.Since` is far above 30s, so
the call always proceeds then. -/
def versionShouldCall (s : NodeState) (now : Int) : Bool :=
  match s.lastCheckVersion with
  | none => true
  | some t => decide (30 ≤ now - t)

/-- `RPCNode.Version`.  `resp` is the outcome of
`rpcCli.CallContext(ctx, &ver, "web3_clientVersion")`: on success the string
result, on failure the error, with the result buffer `ver` left at its zero
value `""`. -/
def Version (s : NodeState) (now : Int) (resp : Except Unit String) :
    (String × Option Unit) × NodeState :=
  if versionShouldCall s now then
    let s1 := { s with lastCheckVersion := some now, versionCalls := s.versionCalls + 1 }
    match resp with
    | .ok ver => ((ver, none), { s1 with version := ver })
    | .error e => (("", some e), s1)
  else
    ((s.version, none), s)

/-- `RPCNode.throttledGetHeader`: one rate-limited header fetch.  On success
the header is logged to the db backend and stored into the chain history at
its own number (`h.Number.Uint64()`). -/
def throttledGetHeader (p : Provider) (s : NodeState) (num : Option Nat) :
    Except FetchError BlockInfo × NodeState :=
  let resp := p s.calls num
  let s1 := { s with calls := s.calls + 1 }
  match resp with
  | .err => (.error .rpc, s1)
  | .nilHeader => (.error .empty, s1)
  | .ok h =>
    let bl : BlockInfo := ⟨h.number % U64, h.hash, h.parentHash⟩
    (.ok bl, { s1 with db := (h.hash, h) :: s1.db, chainHistory := histInsert s1.chainHistory bl.num bl })

/-- The `for parentInfo != nil` reorg-ancestry loop of `RPCNode.fetchHeader`,
with fuel.  Returns the state, the final `reorgs` counter, and whether the
loop exited through one of its own exits (parent gone, hash match, or failed
re-fetch) rather than by running out of fuel. -/
def walk (p : Provider) : Nat → NodeState → BlockInfo → Option BlockInfo → Nat →
    NodeState × Nat × Bool
  | 0, s, _, _, reorgs => (s, reorgs, false)
  | fuel + 1, s, current, parentInfo, reorgs =>
    match parentInfo with
    | none => (s, reorgs, true)
    | some pin =>
      if pin.hash = current.pHash then (s, reorgs, true)
      else
        let s1 := { s with chainHistory := histErase s.chainHistory pin.num }
        match throttledGetHeader p s1 (some pin.num) with
        | (.error _, s2) => (s2, reorgs + 1, true)
        | (.ok cur2, s2) =>
          walk p fuel s2 cur2 (histFind s2.chainHistory (sub1 cur2.num))
            (reorgs + 1)

/-- The outcome of `RPCNode.fetchHeader`: returned value/error, node state,
the loop's `reorgs` counter, and the loop-exit flag of `walk`. -/
structure FetchOut where
  res : Except FetchError BlockInfo
  st : NodeState
  reorgs : Nat
  walkExited : Bool
deriving DecidableEq

/-- `RPCNode.fetchHeader`: fetch, then (if a cached parent exists at
`hdr.num - 1`, with `uint64` wraparound) run the reorg-ancestry walk. -/
def fetchHeader (p : Provider) (fuel : Nat) (s : NodeState) (num : Option Nat) :
    FetchOut :=
  match throttledGetHeader p s num with
  | (.error e, s1) => ⟨.error e, s1, 0, true⟩
  | (.ok hdr, s1) =>
    match histFind s1.chainHistory (sub1 hdr.num) with
    | none => ⟨.ok hdr, s1, 0, true⟩
    | some pin =>
      let r := walk p fuel s1 hdr (some pin) 0
      ⟨.ok hdr, r.1, r.2.1, r.2.2⟩

/-- `RPCNode.UpdateLatest`: fetch the chain tip; on success, if there is no
previous latest or the hash changed, record progress at time `now`, set
`latest` and push the head gauge. -/
def UpdateLatest (p : Provider) (fuel : Nat) (now : Int) (s : NodeState) :
    Option FetchError × NodeState :=
  let out := fetchHeader p fuel s none
  match out.res with
  | .error e => (some e, out.st)
  | .ok bl =>
    let s1 := out.st
    let progressed : Bool :=
      match s1.latest with
      | none => true
      | some l => l.hash != bl.hash
    if progressed then
      (none, { s1 with lastProgress := now, latest := some bl, headGauge := some (int64OfUInt64 bl.num) })
    else
      (none, s1)

/-- The part of `RPCNode.BlockAt` after the future-height short circuit:
consult the cache unless `force`, otherwise fetch (errors are swallowed into
`none`). -/
def blockAtCore (p : Provider) (fuel : Nat) (s : NodeState) (num : Nat)
    (force : Bool) : Option BlockInfo × NodeState :=
  if !force then
    match histFind s.chainHistory num with
    | some bl => (some bl, s)
    | none =>
      let out := fetchHeader p fuel s (some num)
      (out.res.toOption, out.st)
  else
    let out := fetchHeader p fuel s (some num)
    (out.res.toOption, out.st)

/-- `RPCNode.BlockAt`: heights strictly above a known latest head return
`nil` at once, otherwise cache-or-fetch. -/
def BlockAt (p : Provider) (fuel : Nat) (s : NodeState) (num : Nat)
    (force : Bool) : Option BlockInfo × NodeState :=
  match s.latest with
  | some l => if l.num < num then (none, s) else blockAtCore p fuel s num force
  | none => blockAtCore p fuel s num force

/-- `RPCNode.HashAt`: the hash of `BlockAt`, or the zero hash. -/
def HashAt (p : Provider) (fuel : Nat) (s : NodeState) (num : Nat)
    (force : Bool) : Nat × NodeState :=
  match BlockAt p fuel s num force with
  | (some bl, s1) => (bl.hash, s1)
  | (none, s1) => (0, s1)

/-- `RPCNode.HeadNum`. -/
def HeadNum (s : NodeState) : Nat :=
  match s.latest with
  | some l => l.num
  | none => 0

/-! ### Lemmas about the chain-history map -/

/-- The key list of the chain history. -/
def histKeys (h : Hist) : List Nat := h.map Prod.fst

/-- The chain history has at most one entry per height. -/
def histKeysNodup (h : Hist) : Prop := (histKeys h).Nodup

/-- Every resident entry's `blockInfo` carries the height it is filed under. -/
def HistNum (h : Hist) : Prop := ∀ e ∈ h, (e.2).num = e.1

/-- Every resident height is a `uint64` value. -/
def HistBound (h : Hist) : Prop := ∀ e ∈ h, e.1 < U64

/-- Well-formedness of the chain history. -/
def HistWF (h : Hist) : Prop := histKeysNodup h ∧ HistNum h ∧ HistBound h

instance (h : Hist) : Decidable (HistNum h) := List.decidableBAll _ h

instance (h : Hist) : Decidable (HistBound h) := List.decidableBAll _ h

instance (h : Hist) : Decidable (histKeysNodup h) := List.nodupDecidable _

instance (h : Hist) : Decidable (HistWF h) := instDecidableAnd

theorem find?_filter_ne (h : Hist) (k k' : Nat) (hne : k' ≠ k) :
    (h.filter (fun p => p.1 != k)).find? (fun p => p.1 == k') =
      h.find? (fun p => p.1 == k') := by
  induction h with
  | nil => rfl
  | cons e t ih =>
    rw [List.filter_cons]
    by_cases he : e.1 = k
    · rw [if_neg (by simp [he])]
      rw [List.find?_cons_of_neg _ (by simp [he]; exact Ne.symm hne)]
      exact ih
    · rw [if_pos (by simp [he])]
      by_cases he2 : e.1 = k'
      · rw [List.find?_cons_of_pos _ (by simp [he2]),
          List.find?_cons_of_pos _ (by simp [he2])]
      · rw [List.find?_cons_of_neg _ (by simp [he2]),
          List.find?_cons_of_neg _ (by simp [he2])]
        exact ih

theorem histFind_insert_self (h : Hist) (k : Nat) (v : BlockInfo) :
    histFind (histInsert h k v) k = some v := by
  simp [histFind, histInsert, List.find?]

theorem histFind_insert_ne (h : Hist) (k k' : Nat) (v : BlockInfo)
    (hne : k' ≠ k) : histFind (histInsert h k v) k' = histFind h k' := by
  have h2 : (k == k') = false := by simp [Ne.symm hne]
  simp [histFind, histInsert, List.find?, h2, find?_filter_ne h k k' hne]

theorem histFind_erase_self (h : Hist) (k : Nat) :
    histFind (histErase h k) k = none := by
  have : (h.filter (fun p => p.1 != k)).find? (fun p => p.1 == k) = none := by
    rw [List.find?_eq_none]
    intro e he
    simp only [List.mem_filter, bne_iff_ne] at he
    simp [he.2]
  simp [histFind, histErase, this]

theorem histFind_erase_ne (h : Hist) (k k' : Nat) (hne : k' ≠ k) :
    histFind (histErase h k) k' = histFind h k' := by
  simp [histFind, histErase, find?_filter_ne h k k' hne]

theorem histMem_insert (h : Hist) (k k' : Nat) (v : BlockInfo) :
    histMem (histInsert h k v) k' = (k' == k || histMem h k') := by
  by_cases he : k' = k
  · subst he; simp [histMem, histFind_insert_self]
  · simp [histMem, histFind_insert_ne h k k' v he, he]

theorem histMem_erase (h : Hist) (k k' : Nat) :
    histMem (histErase h k) k' = (k' != k && histMem h k') := by
  by_cases he : k' = k
  · subst he; simp [histMem, histFind_erase_self]
  · simp [histMem, histFind_erase_ne h k k' he, he]

theorem histFind_mem (h : Hist) (k : Nat) (bl : BlockInfo)
    (hf : histFind h k = some bl) : (k, bl) ∈ h ∧ k ∈ histKeys h := by
  unfold histFind at hf
  cases hfind : h.find? (fun p => p.1 == k) with
  | none => rw [hfind] at hf; exact absurd hf (by simp)
  | some e =>
    rw [hfind] at hf
    have hval : e.2 = bl := by exact Option.some.inj hf
    have hkey : e.1 = k := by
      have := List.find?_some hfind
      exact eq_of_beq this
    have hmem : e ∈ h := List.mem_of_find?_eq_some hfind
    constructor
    · have : e = (k, bl) := by
        cases e; simp at hval hkey; rw [hval, hkey]
      rw [← this]; exact hmem
    · exact hkey ▸ List.mem_map_of_mem Prod.fst hmem

theorem histFind_num (h : Hist) (k : Nat) (bl : BlockInfo) (hn : HistNum h)
    (hf : histFind h k = some bl) : bl.num = k := by
  have := (histFind_mem h k bl hf).1
  exact hn (k, bl) this

theorem histKeysNodup_insert (h : Hist) (k : Nat) (v : BlockInfo)
    (hn : histKeysNodup h) : histKeysNodup (histInsert h k v) := by
  unfold histKeysNodup histKeys histInsert
  simp only [List.map_cons, List.nodup_cons]
  constructor
  · intro hmem
    rcases List.mem_map.mp hmem with ⟨e, hme, hke⟩
    rcases List.mem_filter.mp hme with ⟨_, hnk⟩
    exact bne_iff_ne.mp hnk hke
  · exact List.Nodup.sublist ((List.filter_sublist h).map Prod.fst) hn

theorem histKeysNodup_erase (h : Hist) (k : Nat) (hn : histKeysNodup h) :
    histKeysNodup (histErase h k) :=
  List.Nodup.sublist ((List.filter_sublist h).map Prod.fst) hn

theorem HistNum_insert (h : Hist) (k : Nat) (v : BlockInfo) (hn : HistNum h)
    (hv : v.num = k) : HistNum (histInsert h k v) := by
  intro e he
  rcases List.mem_cons.mp he with he1 | he2
  · rw [he1]; exact hv
  · exact hn e (List.mem_of_mem_filter he2)

theorem HistNum_erase (h : Hist) (k : Nat) (hn : HistNum h) :
    HistNum (histErase h k) := fun e he => hn e (List.mem_of_mem_filter he)

theorem HistBound_insert (h : Hist) (k : Nat) (v : BlockInfo) (hn : HistBound h)
    (hk : k < U64) : HistBound (histInsert h k v) := by
  intro e he
  rcases List.mem_cons.mp he with he1 | he2
  · rw [he1]; exact hk
  · exact hn e (List.mem_of_mem_filter he2)

theorem HistBound_erase (h : Hist) (k : Nat) (hn : HistBound h) :
    HistBound (histErase h k) := fun e he => hn e (List.mem_of_mem_filter he)

theorem HistWF_insert (h : Hist) (k : Nat) (v : BlockInfo) (hn : HistWF h)
    (hv : v.num = k) (hk : k < U64) : HistWF (histInsert h k v) :=
  ⟨histKeysNodup_insert h k v hn.1, HistNum_insert h k v hn.2.1 hv,
    HistBound_insert h k v hn.2.2 hk⟩

theorem HistWF_erase (h : Hist) (k : Nat) (hn : HistWF h) :
    HistWF (histErase h k) :=
  ⟨histKeysNodup_erase h k hn.1, HistNum_erase h k hn.2.1,
    HistBound_erase h k hn.2.2⟩

/-! ### Frame lemmas: which node fields the fetch path leaves untouched -/

/-- All node fields other than the chain history, the db log and the header
call counter agree between two states. -/
def FrameEq (a b : NodeState) : Prop :=
  a.version = b.version ∧ a.latest = b.latest ∧ a.lastProgress = b.lastProgress ∧
  a.lastCheckVersion = b.lastCheckVersion ∧ a.headGauge = b.headGauge ∧
  a.status = b.status ∧ a.versionCalls = b.versionCalls

theorem FrameEq.rfl (a : NodeState) : FrameEq a a :=
  ⟨Eq.refl _, Eq.refl _, Eq.refl _, Eq.refl _, Eq.refl _, Eq.refl _, Eq.refl _⟩

theorem FrameEq.trans {a b c : NodeState} (h1 : FrameEq a b) (h2 : FrameEq b c) :
    FrameEq a c :=
  ⟨h1.1.trans h2.1, h1.2.1.trans h2.2.1, h1.2.2.1.trans h2.2.2.1,
    h1.2.2.2.1.trans h2.2.2.2.1, h1.2.2.2.2.1.trans h2.2.2.2.2.1,
    h1.2.2.2.2.2.1.trans h2.2.2.2.2.2.1, h1.2.2.2.2.2.2.trans h2.2.2.2.2.2.2⟩

theorem tgh_frame (p : Provider) (s : NodeState) (num : Option Nat) :
    FrameEq (throttledGetHeader p s num).2 s := by
  cases hp : p s.calls num <;>
    simp [throttledGetHeader, hp, FrameEq]

theorem tgh_calls (p : Provider) (s : NodeState) (num : Option Nat) :
    (throttledGetHeader p s num).2.calls = s.calls + 1 := by
  cases hp : p s.calls num <;> simp [throttledGetHeader, hp]

theorem walk_frame (p : Provider) (fuel : Nat) :
    ∀ (s : NodeState) (cur : BlockInfo) (pin : Option BlockInfo) (r : Nat),
    FrameEq (walk p fuel s cur pin r).1 s := by
  induction fuel with
  | zero => intro s cur pin r; exact FrameEq.rfl s
  | succ n ih =>
    intro s cur pin r
    cases pin with
    | none => exact FrameEq.rfl s
    | some pin =>
      by_cases hh : pin.hash = cur.pHash
      · simp only [walk, if_pos hh]; exact FrameEq.rfl s
      · rcases htgh : throttledGetHeader p
            { s with chainHistory := histErase s.chainHistory pin.num }
            (some pin.num) with ⟨res, s2⟩
        have hf : FrameEq s2 s := by
          have := tgh_frame p
            { s with chainHistory := histErase s.chainHistory pin.num }
            (some pin.num)
          rw [htgh] at this
          exact this
        cases res with
        | error e =>
          simp only [walk, if_neg hh, htgh]
          exact hf
        | ok cur2 =>
          simp only [walk, if_neg hh, htgh]
          exact (ih s2 cur2 (histFind s2.chainHistory (sub1 cur2.num)) (r + 1)).trans hf

theorem fetchHeader_frame (p : Provider) (fuel : Nat) (s : NodeState)
    (num : Option Nat) : FrameEq (fetchHeader p fuel s num).st s := by
  rcases htgh : throttledGetHeader p s num with ⟨res, s1⟩
  have hf : FrameEq s1 s := by
    have := tgh_frame p s num; rw [htgh] at this; exact this
  cases res with
  | error e => simp only [fetchHeader, htgh]; exact hf
  | ok hdr =>
    cases hfind : histFind s1.chainHistory (sub1 hdr.num) with
    | none => simp only [fetchHeader, htgh, hfind]; exact hf
    | some pin =>
      simp only [fetchHeader, htgh, hfind]
      exact (walk_frame p fuel s1 hdr (some pin) 0).trans hf

/-! ### Invariant preservation: chain-history well-formedness -/

theorem HistWF_tgh (p : Provider) (s : NodeState) (num : Option Nat)
    (hwf : HistWF s.chainHistory) :
    HistWF (throttledGetHeader p s num).2.chainHistory := by
  cases hp : p s.calls num with
  | err => simpa [throttledGetHeader, hp] using hwf
  | nilHeader => simpa [throttledGetHeader, hp] using hwf
  | ok h =>
    simp only [throttledGetHeader, hp]
    exact HistWF_insert _ _ _ hwf rfl (Nat.mod_lt _ (by norm_num [U64]))

theorem HistWF_walk (p : Provider) (fuel : Nat) :
    ∀ (s : NodeState) (cur : BlockInfo) (pin : Option BlockInfo) (r : Nat),
    HistWF s.chainHistory → HistWF (walk p fuel s cur pin r).1.chainHistory := by
  induction fuel with
  | zero => intro s cur pin r hwf; exact hwf
  | succ n ih =>
    intro s cur pin r hwf
    cases pin with
    | none => exact hwf
    | some pin =>
      by_cases hh : pin.hash = cur.pHash
      · simpa only [walk, if_pos hh] using hwf
      · rcases htgh : throttledGetHeader p
            { s with chainHistory := histErase s.chainHistory pin.num }
            (some pin.num) with ⟨res, s2⟩
        have hwf2 : HistWF s2.chainHistory := by
          have := HistWF_tgh p
            { s with chainHistory := histErase s.chainHistory pin.num }
            (some pin.num) (HistWF_erase _ pin.num hwf)
          rw [htgh] at this
          exact this
        cases res with
        | error e => simp only [walk, if_neg hh, htgh]; exact hwf2
        | ok cur2 =>
          simp only [walk, if_neg hh, htgh]
          exact ih s2 cur2 (histFind s2.chainHistory (sub1 cur2.num)) (r + 1) hwf2

theorem HistWF_fetchHeader (p : Provider) (fuel : Nat) (s : NodeState)
    (num : Option Nat) (hwf : HistWF s.chainHistory) :
    HistWF (fetchHeader p fuel s num).st.chainHistory := by
  rcases htgh : throttledGetHeader p s num with ⟨res, s1⟩
  have hwf1 : HistWF s1.chainHistory := by
    have := HistWF_tgh p s num hwf; rw [htgh] at this; exact this
  cases res with
  | error e => simp only [fetchHeader, htgh]; exact hwf1
  | ok hdr =>
    cases hfind : histFind s1.chainHistory (sub1 hdr.num) with
    | none => simp only [fetchHeader, htgh, hfind]; exact hwf1
    | some pin =>
      simp only [fetchHeader, htgh, hfind]
      exact HistWF_walk p fuel s1 hdr (some pin) 0 hwf1

/-! ### Invariant preservation: keys match block numbers (weaker, standalone) -/

theorem HistNum_tgh (p : Provider) (s : NodeState) (num : Option Nat)
    (hn : HistNum s.chainHistory) :
    HistNum (throttledGetHeader p s num).2.chainHistory := by
  cases hp : p s.calls num with
  | err => simpa [throttledGetHeader, hp] using hn
  | nilHeader => simpa [throttledGetHeader, hp] using hn
  | ok h =>
    simp only [throttledGetHeader, hp]
    exact HistNum_insert _ _ _ hn rfl

theorem HistNum_walk (p : Provider) (fuel : Nat) :
    ∀ (s : NodeState) (cur : BlockInfo) (pin : Option BlockInfo) (r : Nat),
    HistNum s.chainHistory → HistNum (walk p fuel s cur pin r).1.chainHistory := by
  induction fuel with
  | zero => intro s cur pin r hn; exact hn
  | succ n ih =>
    intro s cur pin r hn
    cases pin with
    | none => exact hn
    | some pin =>
      by_cases hh : pin.hash = cur.pHash
      · simpa only [walk, if_pos hh] using hn
      · rcases htgh : throttledGetHeader p
            { s with chainHistory := histErase s.chainHistory pin.num }
            (some pin.num) with ⟨res, s2⟩
        have hn2 : HistNum s2.chainHistory := by
          have := HistNum_tgh p
            { s with chainHistory := histErase s.chainHistory pin.num }
            (some pin.num) (HistNum_erase _ pin.num hn)
          rw [htgh] at this
          exact this
        cases res with
        | error e => simp only [walk, if_neg hh, htgh]; exact hn2
        | ok cur2 =>
          simp only [walk, if_neg hh, htgh]
          exact ih s2 cur2 (histFind s2.chainHistory (sub1 cur2.num)) (r + 1) hn2

theorem HistNum_fetchHeader (p : Provider) (fuel : Nat) (s : NodeState)
    (num : Option Nat) (hn : HistNum s.chainHistory) :
    HistNum (fetchHeader p fuel s num).st.chainHistory := by
  rcases htgh : throttledGetHeader p s num with ⟨res, s1⟩
  have hn1 : HistNum s1.chainHistory := by
    have := HistNum_tgh p s num hn; rw [htgh] at this; exact this
  cases res with
  | error e => simp only [fetchHeader, htgh]; exact hn1
  | ok hdr =>
    cases hfind : histFind s1.chainHistory (sub1 hdr.num) with
    | none => simp only [fetchHeader, htgh, hfind]; exact hn1
    | some pin =>
      simp only [fetchHeader, htgh, hfind]
      exact HistNum_walk p fuel s1 hdr (some pin) 0 hn1

/-! ### The claims -/

/-- C2: a fetch operation that fails (RPC error or nil header; a cancelled
context surfaces as an RPC error) returns an error and leaves the node's
chain-history cache and db write log exactly as they were when the operation
began.  The statement quantifies over every node state, so it covers the
initial fetch of `fetchHeader` and every re-fetch issued mid-walk alike; the
`fetchHeader` conjuncts show a failing initial fetch aborts the whole
operation with the cache untouched. -/
theorem claim_C2 (p : Provider) (fuel : Nat) (s : NodeState) (num : Option Nat)
    (hfail : p s.calls num = .err ∨ p s.calls num = .nilHeader) :
    (∃ e, (throttledGetHeader p s num).1 = .error e) ∧
    (throttledGetHeader p s num).2.chainHistory = s.chainHistory ∧
    (throttledGetHeader p s num).2.db = s.db ∧
    (∃ e, (fetchHeader p fuel s num).res = .error e) ∧
    (fetchHeader p fuel s num).st.chainHistory = s.chainHistory ∧
    (fetchHeader p fuel s num).st.db = s.db := by
  rcases hfail with hp | hp
  · exact ⟨⟨.rpc, by simp [throttledGetHeader, hp]⟩,
      by simp [throttledGetHeader, hp], by simp [throttledGetHeader, hp],
      ⟨.rpc, by simp [fetchHeader, throttledGetHeader, hp]⟩,
      by simp [fetchHeader, throttledGetHeader, hp],
      by simp [fetchHeader, throttledGetHeader, hp]⟩
  · exact ⟨⟨.empty, by simp [throttledGetHeader, hp]⟩,
      by simp [throttledGetHeader, hp], by simp [throttledGetHeader, hp],
      ⟨.empty, by simp [fetchHeader, throttledGetHeader, hp]⟩,
      by simp [fetchHeader, throttledGetHeader, hp],
      by simp [fetchHeader, throttledGetHeader, hp]⟩

/-- A provider whose every call fails at the transport level. -/
def failProvider : Provider := fun _ _ => .err

theorem claim_C2_witness :
    (∃ e, (throttledGetHeader failProvider initialNode (some 7)).1 = .error e) ∧
    (throttledGetHeader failProvider initialNode (some 7)).2.chainHistory =
      initialNode.chainHistory ∧
    (throttledGetHeader failProvider initialNode (some 7)).2.db =
      initialNode.db ∧
    (∃ e, (fetchHeader failProvider 5 initialNode (some 7)).res = .error e) ∧
    (fetchHeader failProvider 5 initialNode (some 7)).st.chainHistory =
      initialNode.chainHistory ∧
    (fetchHeader failProvider 5 initialNode (some 7)).st.db = initialNode.db :=
  claim_C2 failProvider 5 initialNode (some 7) (Or.inl rfl)

/-- C5: whenever the initial fetch of the requested height succeeds,
`fetchHeader` returns exactly that fetch's `blockInfo` with no error, whatever
happens inside the reorg-ancestry walk — in particular when a re-fetch issued
during the walk fails, the walk aborts and the overall operation still
succeeds (the witness below exercises exactly that scenario). -/
theorem claim_C5 (p : Provider) (fuel : Nat) (s : NodeState) (num : Option Nat)
    (hdr : BlockInfo) (s1 : NodeState)
    (h : throttledGetHeader p s num = (.ok hdr, s1)) :
    (fetchHeader p fuel s num).res = .ok hdr := by
  simp only [fetchHeader, h]
  cases histFind s1.chainHistory (sub1 hdr.num) <;> simp

/-- A provider that serves height 5, then fails the walk's re-fetch of
height 4. -/
def c5Provider : Provider := fun i r =>
  match i, r with
  | 0, some 5 => .ok ⟨5, 50, 40⟩
  | _, _ => .err

/-- A node whose cache holds a stale parent at height 4 (hash 99 ≠ 40), so
fetching height 5 starts a reorg walk whose re-fetch fails. -/
def c5State : NodeState := { initialNode with chainHistory := [(4, ⟨4, 99, 98⟩)] }

theorem claim_C5_witness :
    (fetchHeader c5Provider 10 c5State (some 5)).res = .ok ⟨5, 50, 40⟩ :=
  claim_C5 c5Provider 10 c5State (some 5) ⟨5, 50, 40⟩
    ((throttledGetHeader c5Provider c5State (some 5)).2) (by decide)

/-- C9: when a confirmed latest head exists and the requested height is
strictly above it, `BlockAt(height, false)` returns no data with the node
state literally unchanged — hence no network call is issued (the call counter
is part of the state) and the cache is untouched; when no latest head exists
the short circuit does not apply and `BlockAt` is exactly the ordinary
cache-or-fetch path `blockAtCore`. -/
theorem claim_C9 (p : Provider) (fuel : Nat) (s : NodeState) (num : Nat) :
    (∀ l, s.latest = some l → l.num < num →
      BlockAt p fuel s num false = (none, s)) ∧
    (s.latest = none →
      BlockAt p fuel s num false = blockAtCore p fuel s num false) := by
  constructor
  · intro l hl hlt
    simp [BlockAt, hl, hlt]
  · intro hl
    simp [BlockAt, hl]

/-- A node that believes the chain tip is at height 10. -/
def c9State : NodeState := { initialNode with latest := some ⟨10, 100, 99⟩ }

theorem claim_C9_witness :
    BlockAt failProvider 3 c9State 11 false = (none, c9State) ∧
    BlockAt failProvider 3 initialNode 11 false =
      blockAtCore failProvider 3 initialNode 11 false :=
  ⟨(claim_C9 failProvider 3 c9State 11).1 ⟨10, 100, 99⟩ rfl (by decide),
   (claim_C9 failProvider 3 initialNode 11).2 rfl⟩

/-- A node whose cached version string is a real value, used to exhibit the
behaviour of `Version` on a failed RPC call. -/
def c1State : NodeState := { initialNode with version := "Geth-v1.13" }

/-- C1 counterexample: on a failed version RPC call, `Version` does NOT return
the last-known cached version value together with the error — it returns the
zero-valued result buffer `""` (which differs from the cached `"Geth-v1.13"`)
together with the error. -/
theorem claim_C1_counterexample :
    c1State.version = "Geth-v1.13" ∧
    (Version c1State 100 (.error ())).1 = ("", some ()) ∧
    (Version c1State 100 (.error ())).1.1 ≠ c1State.version := by decide

/-- C1 (amended): when the version RPC call fails, `Version` returns the empty
string (the zero value of the RPC result buffer) together with the fetch
error, and the cached version value is not overwritten by the failed call;
when called again within 30 seconds of the last check it returns the cached
value with no error and no state change. -/
theorem claim_C1_amended (s : NodeState) (now : Int) (resp : Except Unit String) :
    (∀ e, resp = .error e → versionShouldCall s now = true →
      (Version s now resp).1 = ("", some e) ∧
      (Version s now resp).2.version = s.version) ∧
    (∀ t, s.lastCheckVersion = some t → now - t < 30 →
      Version s now resp = ((s.version, none), s)) := by
  constructor
  · intro e he hc
    subst he
    simp [Version, hc]
  · intro t ht hlt
    have hc : versionShouldCall s now = false := by
      simp only [versionShouldCall, ht, decide_eq_false_iff_not]
      omega
    simp [Version, hc]

/-- The node of `c1State` right after a version check at time 90. -/
def c1State2 : NodeState := { c1State with lastCheckVersion := some 90 }

theorem claim_C1_amended_witness :
    ((Version c1State 100 (.error ())).1 = ("", some ()) ∧
      (Version c1State 100 (.error ())).2.version = c1State.version) ∧
    Version c1State2 100 (.ok "other") = ((c1State2.version, none), c1State2) :=
  ⟨(claim_C1_amended c1State 100 (.error ())).1 () rfl (by decide),
   (claim_C1_amended c1State2 100 (.ok "other")).2 90 rfl (by decide)⟩

/-- C6: `UpdateLatest` behaviour.  If the tip fetch fails, the error is
returned and `latest`, last-progress and the gauge are unchanged.  On success
with no previous latest or a changed head hash, `latest` becomes the fetched
`blockInfo`, last-progress becomes the current time and the gauge is updated
with the new block number (as Go's `int64(bl.num)`, which equals the number
for any number below `2 ^ 63`).  On success with an unchanged head hash,
`latest`, last-progress and the gauge are all left untouched. -/
theorem claim_C6 (p : Provider) (fuel : Nat) (now : Int) (s : NodeState) :
    (∀ e, (fetchHeader p fuel s none).res = .error e →
      (UpdateLatest p fuel now s).1 = some e ∧
      (UpdateLatest p fuel now s).2.latest = s.latest ∧
      (UpdateLatest p fuel now s).2.lastProgress = s.lastProgress ∧
      (UpdateLatest p fuel now s).2.headGauge = s.headGauge) ∧
    (∀ bl, (fetchHeader p fuel s none).res = .ok bl →
      (s.latest = none ∨ ∃ l, s.latest = some l ∧ l.hash ≠ bl.hash) →
      (UpdateLatest p fuel now s).1 = none ∧
      (UpdateLatest p fuel now s).2.latest = some bl ∧
      (UpdateLatest p fuel now s).2.lastProgress = now ∧
      (UpdateLatest p fuel now s).2.headGauge = some (int64OfUInt64 bl.num)) ∧
    (∀ bl l, (fetchHeader p fuel s none).res = .ok bl → s.latest = some l →
      l.hash = bl.hash →
      (UpdateLatest p fuel now s).1 = none ∧
      (UpdateLatest p fuel now s).2.latest = s.latest ∧
      (UpdateLatest p fuel now s).2.lastProgress = s.lastProgress ∧
      (UpdateLatest p fuel now s).2.headGauge = s.headGauge) := by
  have hfr := fetchHeader_frame p fuel s none
  have hlat : (fetchHeader p fuel s none).st.latest = s.latest := hfr.2.1
  have hpro : (fetchHeader p fuel s none).st.lastProgress = s.lastProgress :=
    hfr.2.2.1
  have hgau : (fetchHeader p fuel s none).st.headGauge = s.headGauge :=
    hfr.2.2.2.2.1
  refine ⟨?_, ?_, ?_⟩
  · intro e he
    have hres : UpdateLatest p fuel now s = (some e, (fetchHeader p fuel s none).st) := by
      simp only [UpdateLatest, he]
    rw [hres]
    exact ⟨rfl, hlat, hpro, hgau⟩
  · intro bl hb hcond
    simp only [UpdateLatest, hb, hlat]
    rcases hcond with hnone | ⟨l, hl, hne⟩
    · simp [hnone]
    · simp [hl, hne]
  · intro bl l hb hl heq
    have hres : UpdateLatest p fuel now s = (none, (fetchHeader p fuel s none).st) := by
      simp only [UpdateLatest, hb, hlat, hl]
      simp [heq]
    rw [hres]
    exact ⟨rfl, hlat, hpro, hgau⟩

/-- A provider that always serves the same tip header (height 7, hash 70). -/
def c6Provider : Provider := fun _ _ => .ok ⟨7, 70, 69⟩

/-- A node whose latest head is already the header served by `c6Provider`. -/
def c6State : NodeState := { initialNode with latest := some ⟨7, 70, 69⟩ }

theorem claim_C6_witness :
    (UpdateLatest failProvider 3 55 initialNode).1 = some FetchError.rpc ∧
    (UpdateLatest c6Provider 3 55 initialNode).2.latest = some ⟨7, 70, 69⟩ ∧
    (UpdateLatest c6Provider 3 55 initialNode).2.lastProgress = 55 ∧
    (UpdateLatest c6Provider 3 55 c6State).2.lastProgress = c6State.lastProgress :=
  ⟨((claim_C6 failProvider 3 55 initialNode).1 .rpc (by decide)).1,
   ((claim_C6 c6Provider 3 55 initialNode).2.1 ⟨7, 70, 69⟩ (by decide)
      (Or.inl rfl)).2.1,
   ((claim_C6 c6Provider 3 55 initialNode).2.1 ⟨7, 70, 69⟩ (by decide)
      (Or.inl rfl)).2.2.1,
   ((claim_C6 c6Provider 3 55 c6State).2.2 ⟨7, 70, 69⟩ ⟨7, 70, 69⟩ (by decide)
      rfl rfl).2.2.1⟩

/-! ### A run of `Version` calls -/

/-- A sequence of `Version` calls: each element carries the wall-clock time of
the call and the RPC outcome it would observe.  Returns the final node state
and the times at which a network call was actually issued. -/
def versionRun : NodeState → List (Int × Except Unit String) → NodeState × List Int
  | s, [] => (s, [])
  | s, (now, resp) :: rest =>
    let s1 := (Version s now resp).2
    let t := versionRun s1 rest
    if versionShouldCall s now then (t.1, now :: t.2) else (t.1, t.2)

theorem versionRun_aux (inputs : List (Int × Except Unit String)) :
    ∀ s : NodeState,
    ((versionRun s inputs).2.Pairwise (fun a b => a + 30 ≤ b)) ∧
    (∀ t0, s.lastCheckVersion = some t0 →
      ∀ u ∈ (versionRun s inputs).2, t0 + 30 ≤ u) := by
  induction inputs with
  | nil =>
    intro s
    refine ⟨List.Pairwise.nil, ?_⟩
    intro t0 _ u hu
    simp [versionRun] at hu
  | cons x rest ih =>
    intro s
    obtain ⟨now, resp⟩ := x
    by_cases hc : versionShouldCall s now
    · have hs1 : (Version s now resp).2.lastCheckVersion = some now := by
        cases resp <;> simp [Version, hc]
      have hih := ih (Version s now resp).2
      have hall : ∀ u ∈ (versionRun (Version s now resp).2 rest).2, now + 30 ≤ u :=
        hih.2 now hs1
      have hred : versionRun s ((now, resp) :: rest) =
          ((versionRun (Version s now resp).2 rest).1,
            now :: (versionRun (Version s now resp).2 rest).2) := by
        simp only [versionRun, if_pos hc]
      rw [hred]
      constructor
      · exact List.Pairwise.cons hall hih.1
      · intro t0 ht0 u hu
        have hnow : t0 + 30 ≤ now := by
          unfold versionShouldCall at hc
          rw [ht0] at hc
          simp only [decide_eq_true_eq] at hc
          omega
        rcases List.mem_cons.mp hu with h1 | h2
        · omega
        · have := hall u h2
          omega
    · have hs1 : (Version s now resp).2 = s := by
        simp [Version, hc]
      have hred : versionRun s ((now, resp) :: rest) =
          ((versionRun s rest).1, (versionRun s rest).2) := by
        simp only [versionRun, if_neg hc, hs1]
      rw [hred]
      exact ⟨(ih s).1, fun t0 ht0 u hu => (ih s).2 t0 ht0 u hu⟩

theorem window_le_one (l : List Int)
    (hp : l.Pairwise (fun a b => a + 30 ≤ b)) (a : Int) :
    (l.filter (fun t => decide (a ≤ t) && decide (t < a + 30))).length ≤ 1 := by
  have hp2 : (l.filter (fun t => decide (a ≤ t) && decide (t < a + 30))).Pairwise
      (fun a b => a + 30 ≤ b) := hp.sublist (List.filter_sublist l)
  cases hf : l.filter (fun t => decide (a ≤ t) && decide (t < a + 30)) with
  | nil => simp
  | cons x tail =>
    cases tail with
    | nil => simp
    | cons y tail2 =>
      exfalso
      rw [hf] at hp2
      have hxy : x + 30 ≤ y := (List.pairwise_cons.mp hp2).1 y (by simp)
      have hx : x ∈ l.filter (fun t => decide (a ≤ t) && decide (t < a + 30)) := by
        rw [hf]; simp
      have hy : y ∈ l.filter (fun t => decide (a ≤ t) && decide (t < a + 30)) := by
        rw [hf]; simp
      have hxp := (List.mem_filter.mp hx).2
      have hyp := (List.mem_filter.mp hy).2
      simp only [Bool.and_eq_true, decide_eq_true_eq] at hxp hyp
      omega

/-- C8: over any sequence of `Version` calls at arbitrary wall-clock times,
any two issued network calls are at least 30 seconds apart, and consequently
every 30-second sliding window `[a, a + 30)` contains at most one issued
network call — regardless of call frequency and of whether the RPC calls
succeed or fail (the 30-second stamp is taken before the call is made). -/
theorem claim_C8 (s : NodeState) (inputs : List (Int × Except Unit String)) :
    ((versionRun s inputs).2.Pairwise (fun a b => a + 30 ≤ b)) ∧
    ∀ a : Int, ((versionRun s inputs).2.filter
      (fun t => decide (a ≤ t) && decide (t < a + 30))).length ≤ 1 :=
  ⟨(versionRun_aux inputs s).1,
   fun a => window_le_one _ (versionRun_aux inputs s).1 a⟩

/-! ### State characterizations for `UpdateLatest`, `BlockAt`, `HashAt` -/

theorem UpdateLatest_chainHistory (p : Provider) (fuel : Nat) (now : Int)
    (s : NodeState) : (UpdateLatest p fuel now s).2.chainHistory =
      (fetchHeader p fuel s none).st.chainHistory := by
  cases hres : (fetchHeader p fuel s none).res with
  | error e => simp only [UpdateLatest, hres]
  | ok bl =>
    simp only [UpdateLatest, hres]
    split <;> rfl

theorem BlockAt_state (p : Provider) (fuel : Nat) (s : NodeState) (num : Nat)
    (force : Bool) : (BlockAt p fuel s num force).2 = s ∨
      (BlockAt p fuel s num force).2 = (fetchHeader p fuel s (some num)).st := by
  have hcore : (blockAtCore p fuel s num force).2 = s ∨
      (blockAtCore p fuel s num force).2 = (fetchHeader p fuel s (some num)).st := by
    cases force with
    | false =>
      cases hf : histFind s.chainHistory num with
      | some bl => left; simp [blockAtCore, hf]
      | none => right; simp [blockAtCore, hf]
    | true => right; simp [blockAtCore]
  cases hl : s.latest with
  | none => simpa [BlockAt, hl] using hcore
  | some l =>
    by_cases hlt : l.num < num
    · left; simp [BlockAt, hl, hlt]
    · simpa [BlockAt, hl, hlt] using hcore

theorem HashAt_state (p : Provider) (fuel : Nat) (s : NodeState) (num : Nat)
    (force : Bool) :
    (HashAt p fuel s num force).2 = (BlockAt p fuel s num force).2 := by
  rcases hb : BlockAt p fuel s num force with ⟨ob, s1⟩
  cases ob <;> simp [HashAt, hb]

/-- C10: the chain-history invariant — every resident entry is filed under its
own block number — is preserved by every operation (`throttledGetHeader`, the
reorg walk inside `fetchHeader`, `UpdateLatest`, `BlockAt`, `HashAt`), for
every provider behaviour; consequently a cache hit in `BlockAt(num, false)`
returns the cached `blockInfo` unchanged, and its number is exactly `num`. -/
theorem claim_C10 (p : Provider) (fuel : Nat) :
    (∀ s num, HistNum s.chainHistory →
      HistNum (throttledGetHeader p s num).2.chainHistory) ∧
    (∀ s num, HistNum s.chainHistory →
      HistNum (fetchHeader p fuel s num).st.chainHistory) ∧
    (∀ now s, HistNum s.chainHistory →
      HistNum (UpdateLatest p fuel now s).2.chainHistory) ∧
    (∀ s num force, HistNum s.chainHistory →
      HistNum (BlockAt p fuel s num force).2.chainHistory) ∧
    (∀ s num force, HistNum s.chainHistory →
      HistNum (HashAt p fuel s num force).2.chainHistory) ∧
    (∀ s num bl, HistNum s.chainHistory →
      histFind s.chainHistory num = some bl →
      (∀ l, s.latest = some l → num ≤ l.num) →
      BlockAt p fuel s num false = (some bl, s) ∧ bl.num = num) := by
  have hblock : ∀ s num force, HistNum s.chainHistory →
      HistNum (BlockAt p fuel s num force).2.chainHistory := by
    intro s num force hn
    rcases BlockAt_state p fuel s num force with hst | hst
    · rw [hst]; exact hn
    · rw [hst]; exact HistNum_fetchHeader p fuel s (some num) hn
  refine ⟨fun s num hn => HistNum_tgh p s num hn,
    fun s num hn => HistNum_fetchHeader p fuel s num hn,
    ?_, hblock, ?_, ?_⟩
  · intro now s hn
    rw [UpdateLatest_chainHistory]
    exact HistNum_fetchHeader p fuel s none hn
  · intro s num force hn
    rw [HashAt_state]
    exact hblock s num force hn
  · intro s num bl hn hf hlat
    refine ⟨?_, histFind_num s.chainHistory num bl hn hf⟩
    cases hl : s.latest with
    | none => simp [BlockAt, hl, blockAtCore, hf]
    | some l =>
      have : ¬ l.num < num := by have := hlat l hl; omega
      simp [BlockAt, hl, this, blockAtCore, hf]

theorem claim_C10_witness :
    HistNum (throttledGetHeader c6Provider c5State (some 7)).2.chainHistory ∧
    (BlockAt failProvider 3 c5State 4 false = (some ⟨4, 99, 98⟩, c5State) ∧
      (⟨4, 99, 98⟩ : BlockInfo).num = 4) :=
  ⟨(claim_C10 c6Provider 3).1 c5State (some 7) (by decide),
   (claim_C10 failProvider 3).2.2.2.2.2 c5State 4 ⟨4, 99, 98⟩ (by decide)
     (by decide) (fun l hl => Option.noConfusion hl)⟩

/-! ### Runs of `fetchHeader` calls -/

/-- The outcome of a sequence of `fetchHeader` calls: final state, per-call
results, and the sum of the per-call reorg counters. -/
structure RunOut where
  st : NodeState
  results : List (Except FetchError BlockInfo)
  reorgSum : Nat

/-- Run `fetchHeader` once per requested height, threading the node state. -/
def fetchRun (p : Provider) (fuel : Nat) : NodeState → List (Option Nat) → RunOut
  | s, [] => ⟨s, [], 0⟩
  | s, num :: rest =>
    let out := fetchHeader p fuel s num
    let t := fetchRun p fuel out.st rest
    ⟨t.st, out.res :: t.results, out.reorgs + t.reorgSum⟩

/-- The heights of the successfully fetched headers of a run. -/
def okHeights : List (Except FetchError BlockInfo) → List Nat
  | [] => []
  | .ok bl :: rest => bl.num :: okHeights rest
  | .error _ :: rest => okHeights rest

/-- Decidable transcript condition for C4: every fetch of the run succeeds,
and each fetched header's parent hash matches the hash cached at the height
below it whenever one is cached. -/
def consistentRun (p : Provider) (fuel : Nat) : NodeState → List (Option Nat) → Bool
  | _, [] => true
  | s, num :: rest =>
    match throttledGetHeader p s num with
    | (.error _, _) => false
    | (.ok hdr, s1) =>
      (match histFind s1.chainHistory (sub1 hdr.num) with
       | some pin => pin.hash == hdr.pHash
       | none => true)
      && consistentRun p fuel (fetchHeader p fuel s num).st rest

theorem tgh_ok (p : Provider) (s : NodeState) (num : Option Nat)
    (hdr : BlockInfo) (s1 : NodeState)
    (htgh : throttledGetHeader p s num = (.ok hdr, s1)) :
    s1.chainHistory = histInsert s.chainHistory hdr.num hdr ∧
    s1.calls = s.calls + 1 := by
  have hcalls := tgh_calls p s num
  rw [htgh] at hcalls
  refine ⟨?_, hcalls⟩
  cases hp : p s.calls num with
  | err => simp [throttledGetHeader, hp] at htgh
  | nilHeader => simp [throttledGetHeader, hp] at htgh
  | ok h =>
    simp only [throttledGetHeader, hp, Prod.mk.injEq, Except.ok.injEq] at htgh
    obtain ⟨hhdr, hs1⟩ := htgh
    rw [← hs1, ← hhdr]

theorem fetchHeader_consistent (p : Provider) (fuel : Nat) (s : NodeState)
    (num : Option Nat) (hdr : BlockInfo) (s1 : NodeState)
    (htgh : throttledGetHeader p s num = (.ok hdr, s1))
    (hcons : match histFind s1.chainHistory (sub1 hdr.num) with
      | some pin => pin.hash = hdr.pHash
      | none => True) :
    (fetchHeader p fuel s num).res = .ok hdr ∧
    (fetchHeader p fuel s num).st = s1 ∧
    (fetchHeader p fuel s num).reorgs = 0 := by
  cases hf : histFind s1.chainHistory (sub1 hdr.num) with
  | none => simp [fetchHeader, htgh, hf]
  | some pin =>
    rw [hf] at hcons
    cases fuel with
    | zero => simp [fetchHeader, htgh, hf, walk]
    | succ n => simp [fetchHeader, htgh, hf, walk, hcons]

/-- C4: over any sequence of `fetchHeader` calls in which every fetched
header's parent hash matches the hash cached at the height below (a
consistent parent-hash chain), the reorg counter stays zero over the whole
run, no re-fetch is ever issued by the walk (exactly one network call per
requested height), and afterwards the cache — whose keys stay duplicate-free
— holds an entry for a height exactly when it held one initially or the
height was fetched during the run. -/
theorem claim_C4 (p : Provider) (fuel : Nat) (nums : List (Option Nat)) :
    ∀ s : NodeState, consistentRun p fuel s nums = true →
    histKeysNodup s.chainHistory →
    (fetchRun p fuel s nums).reorgSum = 0 ∧
    (fetchRun p fuel s nums).st.calls = s.calls + nums.length ∧
    (∀ r ∈ (fetchRun p fuel s nums).results, ∃ bl, r = .ok bl) ∧
    histKeysNodup (fetchRun p fuel s nums).st.chainHistory ∧
    (∀ k, histMem (fetchRun p fuel s nums).st.chainHistory k = true ↔
      (histMem s.chainHistory k = true ∨
        k ∈ okHeights (fetchRun p fuel s nums).results)) := by
  induction nums with
  | nil =>
    intro s _ hn
    refine ⟨rfl, by simp [fetchRun], by simp [fetchRun], hn, ?_⟩
    intro k
    simp [fetchRun, okHeights]
  | cons num rest ih =>
    intro s hc hn
    rcases htgh : throttledGetHeader p s num with ⟨res, s1⟩
    simp only [consistentRun] at hc
    rw [htgh] at hc
    cases res with
    | error e => simp at hc
    | ok hdr =>
      rw [Bool.and_eq_true] at hc
      obtain ⟨hc1, hc2⟩ := hc
      have hcons : match histFind s1.chainHistory (sub1 hdr.num) with
          | some pin => pin.hash = hdr.pHash
          | none => True := by
        cases hf : histFind s1.chainHistory (sub1 hdr.num) with
        | none => trivial
        | some pin =>
          rw [hf] at hc1
          simpa using hc1
      obtain ⟨hres, hst, hreorg⟩ :=
        fetchHeader_consistent p fuel s num hdr s1 htgh hcons
      obtain ⟨hchain, hcalls⟩ := tgh_ok p s num hdr s1 htgh
      have hn1 : histKeysNodup s1.chainHistory := by
        rw [hchain]; exact histKeysNodup_insert _ _ _ hn
      have hc2a : consistentRun p fuel s1 rest = true := by
        rw [← hst]; exact hc2
      have hih := ih s1 hc2a hn1
      have hrun : fetchRun p fuel s (num :: rest) =
          ⟨(fetchRun p fuel s1 rest).st,
            (fetchHeader p fuel s num).res :: (fetchRun p fuel s1 rest).results,
            (fetchHeader p fuel s num).reorgs +
              (fetchRun p fuel s1 rest).reorgSum⟩ := by
        simp only [fetchRun, hst]
      rw [hrun]
      refine ⟨?_, ?_, ?_, hih.2.2.2.1, ?_⟩
      · simp [hreorg, hih.1]
      · simp only [List.length_cons]
        rw [hih.2.1, hcalls]
        omega
      · intro r hr
        rcases List.mem_cons.mp hr with h1 | h2
        · exact ⟨hdr, h1.trans hres⟩
        · exact hih.2.2.1 r h2
      · intro k
        have hmem : histMem s1.chainHistory k =
            (k == hdr.num || histMem s.chainHistory k) := by
          rw [hchain]; exact histMem_insert _ _ _ _
        rw [hres]
        simp only [okHeights, List.mem_cons]
        rw [hih.2.2.2.2 k, hmem]
        simp only [Bool.or_eq_true, beq_iff_eq]
        tauto

/-- A provider that serves a two-block chain: block 10 (hash 100), then its
child block 11 (hash 101, parent 100). -/
def c4Provider : Provider := fun i _ =>
  match i with
  | 0 => .ok ⟨10, 100, 99⟩
  | 1 => .ok ⟨11, 101, 100⟩
  | _ => .err

theorem claim_C4_witness :
    (fetchRun c4Provider 5 initialNode [some 10, some 11]).reorgSum = 0 ∧
    (fetchRun c4Provider 5 initialNode [some 10, some 11]).st.calls =
      initialNode.calls + ([some 10, some 11] : List (Option Nat)).length ∧
    histKeysNodup
      (fetchRun c4Provider 5 initialNode [some 10, some 11]).st.chainHistory ∧
    (histMem (fetchRun c4Provider 5 initialNode
        [some 10, some 11]).st.chainHistory 11 = true ↔
      (histMem initialNode.chainHistory 11 = true ∨
        11 ∈ okHeights (fetchRun c4Provider 5 initialNode
          [some 10, some 11]).results)) :=
  let h := claim_C4 c4Provider 5 [some 10, some 11] initialNode
    (by decide) (by decide)
  ⟨h.1, h.2.1, h.2.2.2.1, h.2.2.2.2 11⟩

/-! ### The report builder -/

/-- Go struct `clientJson`: one node's column metadata. -/
structure ClientJson where
  Version : String
  Name : String
  Status : Nat
  LastProgress : Int
deriving DecidableEq

/-- Go struct `Report`.  `Rows` (Go `map[int][]string`) is an association
list from height to the row of formatted hash cells. -/
structure Report where
  Cols : List ClientJson
  Rows : List (Int × List String)
  Numbers : List Int
  Hashes : List Nat
deriving DecidableEq

/-- `NewReport`. -/
def NewReport (headList : List Int) : Report :=
  { Numbers := headList, Cols := [], Rows := [], Hashes := [] }

/-- Row lookup `r.Rows[num]`; a missing key is Go's `nil` slice. -/
def rowsFind (rows : List (Int × List String)) (k : Int) : List String :=
  match rows.find? (fun p => p.1 == k) with
  | some p => p.2
  | none => []

/-- Row write `r.Rows[num] = row`. -/
def rowsInsert (rows : List (Int × List String)) (k : Int) (v : List String) :
    List (Int × List String) :=
  (k, v) :: rows.filter (fun p => p.1 != k)

/-- `Report.dedup`: replace `Hashes` by its deduplication.  Go builds a
`map[common.Hash]bool` and re-collects its keys in unspecified iteration
order; the model fixes one order (`List.dedup`), and only membership and
duplicate-freeness of the result are relied upon. -/
def Report.dedup (r : Report) : Report := { r with Hashes := r.Hashes.dedup }

/-- Rendering of `fmt.Sprintf("0x%x", hash)` for a 32-byte hash: 64 lowercase
hex digits with leading zeros. -/
def hexString (n : Nat) : String :=
  let ds := Nat.toDigits 16 n
  "0x" ++ String.mk (List.replicate (64 - ds.length) '0' ++ ds)

/-- One node's contribution to a report: its provider, walk fuel, state, name
(Go `node.Name()`), and the wall-clock time and RPC outcome of the `Version`
call that `AddToReport` makes first. -/
structure Session where
  p : Provider
  fuel : Nat
  s : NodeState
  name : String
  now : Int
  versionResp : Except Unit String

/-- The per-height loop of `AddToReport`: for each requested height, call
`BlockAt` (with Go's `uint64(num)` cast and `force = false`), write an empty
cell when there is no data, otherwise the formatted hash cell, appending the
raw hash to `Hashes`. -/
def addRows (p : Provider) (fuel : Nat) :
    NodeState → Report → List Int → Report × NodeState
  | s, r, [] => (r, s)
  | s, r, num :: rest =>
    let row := rowsFind r.Rows num
    let b := BlockAt p fuel s (uint64OfInt num) false
    match b.1 with
    | some bl =>
      addRows p fuel b.2
        { r with Hashes := r.Hashes ++ [bl.hash], Rows := rowsInsert r.Rows num (row ++ [hexString bl.hash]) }
        rest
    | none =>
      addRows p fuel b.2
        { r with Rows := rowsInsert r.Rows num (row ++ [""]) } rest

/-- `Report.AddToReport`: capture the node's version (whatever `Version`
returned, even on error), name, status and last progress as a column, fill
every requested height's row, then dedup the hash list. -/
def AddToReport (sess : Session) (r : Report) : Report × NodeState :=
  let v := (Version sess.s sess.now sess.versionResp).1.1
  let s1 := (Version sess.s sess.now sess.versionResp).2
  let r1 := { r with Cols := r.Cols ++ [⟨v, sess.name, s1.status, s1.lastProgress⟩] }
  let t := addRows sess.p sess.fuel s1 r1 r1.Numbers
  ((t.1).dedup, t.2)

/-- Fold `AddToReport` over a list of nodes. -/
def addAll : List Session → Report → Report
  | [], r => r
  | sess :: rest, r => addAll rest (AddToReport sess r).1

/-- The hashes a node reports during the per-height loop (its non-empty
cells), replayed along the same state thread as `addRows`. -/
def collectedHashes (p : Provider) (fuel : Nat) :
    NodeState → List Int → List Nat
  | _, [] => []
  | s, num :: rest =>
    let b := BlockAt p fuel s (uint64OfInt num) false
    match b.1 with
    | some bl => bl.hash :: collectedHashes p fuel b.2 rest
    | none => collectedHashes p fuel b.2 rest

/-- The hashes one session contributes to a report over `numbers`. -/
def sessionHashes (sess : Session) (numbers : List Int) : List Nat :=
  collectedHashes sess.p sess.fuel
    (Version sess.s sess.now sess.versionResp).2 numbers

theorem addRows_hashes (p : Provider) (fuel : Nat) :
    ∀ (nums : List Int) (s : NodeState) (r : Report),
    (addRows p fuel s r nums).1.Hashes =
      r.Hashes ++ collectedHashes p fuel s nums := by
  intro nums
  induction nums with
  | nil => intro s r; simp [addRows, collectedHashes]
  | cons num rest ih =>
    intro s r
    rcases hb : BlockAt p fuel s (uint64OfInt num) false with ⟨ob, s2⟩
    cases ob with
    | some bl =>
      simp only [addRows, collectedHashes, hb]
      rw [ih]
      simp
    | none =>
      simp only [addRows, collectedHashes, hb]
      rw [ih]

theorem addRows_numbers (p : Provider) (fuel : Nat) :
    ∀ (nums : List Int) (s : NodeState) (r : Report),
    (addRows p fuel s r nums).1.Numbers = r.Numbers := by
  intro nums
  induction nums with
  | nil => intro s r; simp [addRows]
  | cons num rest ih =>
    intro s r
    rcases hb : BlockAt p fuel s (uint64OfInt num) false with ⟨ob, s2⟩
    cases ob with
    | some bl => simp only [addRows, hb]; rw [ih]
    | none => simp only [addRows, hb]; rw [ih]

theorem AddToReport_numbers (sess : Session) (r : Report) :
    (AddToReport sess r).1.Numbers = r.Numbers := by
  simp only [AddToReport, Report.dedup]
  rw [addRows_numbers]

theorem AddToReport_hashes_mem (sess : Session) (r : Report) (h : Nat) :
    h ∈ (AddToReport sess r).1.Hashes ↔
      (h ∈ r.Hashes ∨ h ∈ sessionHashes sess r.Numbers) := by
  simp only [AddToReport, Report.dedup]
  rw [List.mem_dedup, addRows_hashes]
  simp [sessionHashes]

theorem AddToReport_nodup (sess : Session) (r : Report) :
    (AddToReport sess r).1.Hashes.Nodup := by
  simp only [AddToReport, Report.dedup]
  exact List.nodup_dedup _

theorem addAll_spec : ∀ (sessions : List Session) (r : Report),
    (addAll sessions r).Numbers = r.Numbers ∧
    (∀ h : Nat, h ∈ (addAll sessions r).Hashes ↔
      (h ∈ r.Hashes ∨ ∃ sess ∈ sessions, h ∈ sessionHashes sess r.Numbers)) ∧
    (r.Hashes.Nodup → (addAll sessions r).Hashes.Nodup) := by
  intro sessions
  induction sessions with
  | nil =>
    intro r
    refine ⟨rfl, ?_, fun hn => hn⟩
    intro h
    simp [addAll]
  | cons sess rest ih =>
    intro r
    have hnum1 : (AddToReport sess r).1.Numbers = r.Numbers :=
      AddToReport_numbers sess r
    obtain ⟨hnum, hmem, hnd⟩ := ih (AddToReport sess r).1
    refine ⟨?_, ?_, ?_⟩
    · show (addAll rest (AddToReport sess r).1).Numbers = r.Numbers
      rw [hnum, hnum1]
    · intro h
      show h ∈ (addAll rest (AddToReport sess r).1).Hashes ↔ _
      rw [hmem h, AddToReport_hashes_mem, hnum1]
      constructor
      · rintro ((h1 | h2) | ⟨s1, hs1, hh⟩)
        · exact Or.inl h1
        · exact Or.inr ⟨sess, List.mem_cons_self _ _, h2⟩
        · exact Or.inr ⟨s1, List.mem_cons_of_mem _ hs1, hh⟩
      · rintro (h1 | ⟨s1, hs1, hh⟩)
        · exact Or.inl (Or.inl h1)
        · rcases List.mem_cons.mp hs1 with he | hm
          · subst he
            exact Or.inl (Or.inr hh)
          · exact Or.inr ⟨s1, hm, hh⟩
    · intro _
      exact hnd (AddToReport_nodup sess r)

/-- C7: after `AddToReport` has been called for every node, the report's hash
list contains a hash exactly when some node reported a block with that hash
at some requested height during its per-height loop — so empty cells
contribute nothing and no extraneous hash appears — and the list holds each
such hash exactly once (no duplicates). -/
theorem claim_C7 (sessions : List Session) (numbers : List Int) :
    (addAll sessions (NewReport numbers)).Hashes.Nodup ∧
    ∀ h : Nat, h ∈ (addAll sessions (NewReport numbers)).Hashes ↔
      ∃ sess ∈ sessions, h ∈ sessionHashes sess numbers := by
  obtain ⟨hnum, hmem, hnd⟩ := addAll_spec sessions (NewReport numbers)
  refine ⟨hnd (by simp [NewReport]), ?_⟩
  intro h
  rw [hmem h]
  simp [NewReport]

/-! ### Termination of the reorg-ancestry walk -/

theorem U64_pos : 0 < U64 := by norm_num [U64]

theorem U64_eq : U64 = (U64 - 1) + 1 := (Nat.succ_pred_eq_of_pos U64_pos).symm

theorem sub1_lt (n : Nat) (hn : n < U64) : sub1 n < U64 := by
  unfold sub1
  split
  · omega
  · omega

/-- A provider that answers a request for height `n` (when it answers at all)
with a header whose `uint64` number is `n`. -/
def EchoProvider (p : Provider) : Prop :=
  ∀ i n h, n < U64 → p i (some n) = .ok h → h.number % U64 = n

/-- `i`-fold `uint64` decrement. -/
def subIter (q : Nat) : Nat → Nat
  | 0 => q
  | i + 1 => sub1 (subIter q i)

theorem subIter_sub1 (q : Nat) : ∀ i, subIter (sub1 q) i = subIter q (i + 1) := by
  intro i
  induction i with
  | zero => rfl
  | succ n ih => show sub1 (subIter (sub1 q) n) = _ ; rw [ih]; rfl

theorem subIter_add (q a : Nat) : ∀ b, subIter q (a + b) = subIter (subIter q a) b := by
  intro b
  induction b with
  | zero => rfl
  | succ n ih => show subIter q (a + n + 1) = _ ; show sub1 (subIter q (a + n)) = _ ; rw [ih]; rfl

theorem subIter_lt (q : Nat) (hq : q < U64) : ∀ i, subIter q i < U64 := by
  intro i
  induction i with
  | zero => exact hq
  | succ n ih => exact sub1_lt _ ih

theorem subIter_no_wrap (q : Nat) : ∀ d, d ≤ q → subIter q d = q - d := by
  intro d
  induction d with
  | zero => intro _; rfl
  | succ n ih =>
    intro hd
    show sub1 (subIter q n) = q - (n + 1)
    rw [ih (by omega)]
    unfold sub1
    split
    · omega
    · omega

theorem subIter_wrap (q : Nat) : subIter q (q + 1) = U64 - 1 := by
  show sub1 (subIter q q) = U64 - 1
  rw [subIter_no_wrap q q (le_refl q)]
  simp [sub1]

theorem subIter_ne (q : Nat) (hq : q < U64) (i j : Nat) (hij : i < j)
    (hj : j < U64) : subIter q i ≠ subIter q j := by
  intro heq
  have hrlt : subIter q i < U64 := subIter_lt q hq i
  have hU : 0 < U64 := U64_pos
  obtain ⟨d, hd⟩ : ∃ d, j = i + d := ⟨j - i, by omega⟩
  have hd1 : 0 < d := by omega
  have hd2 : d < U64 := by omega
  rw [hd, subIter_add] at heq
  by_cases hcase : d ≤ subIter q i
  · rw [subIter_no_wrap _ _ hcase] at heq
    omega
  · obtain ⟨e, he⟩ : ∃ e, d = (subIter q i + 1) + e :=
      ⟨d - subIter q i - 1, by omega⟩
    have he2 : e ≤ U64 - 1 := by omega
    rw [he, subIter_add, subIter_wrap, subIter_no_wrap _ _ he2] at heq
    omega

/-- The length of the run of consecutively-resident heights descending from
`q` (with `uint64` wraparound), capped at the bound. -/
def chainLen (h : Hist) : Nat → Nat → Nat
  | _, 0 => 0
  | q, b + 1 => if histMem h q then chainLen h (sub1 q) b + 1 else 0

theorem chainLen_le (h : Hist) : ∀ (b q : Nat), chainLen h q b ≤ b := by
  intro b
  induction b with
  | zero => intro q; exact Nat.le_refl 0
  | succ n ih =>
    intro q
    show (if histMem h q then chainLen h (sub1 q) n + 1 else 0) ≤ n + 1
    split
    · exact Nat.succ_le_succ (ih (sub1 q))
    · omega

theorem chainLen_congr (h1 h2 : Hist) (hdom : ∀ k, histMem h1 k = histMem h2 k) :
    ∀ (b q : Nat), chainLen h1 q b = chainLen h2 q b := by
  intro b
  induction b with
  | zero => intro q; rfl
  | succ n ih =>
    intro q
    show (if histMem h1 q then chainLen h1 (sub1 q) n + 1 else 0) =
      (if histMem h2 q then chainLen h2 (sub1 q) n + 1 else 0)
    rw [hdom q, ih (sub1 q)]

theorem chainLen_stabilize (h : Hist) : ∀ (b q b' : Nat),
    chainLen h q b < b → b ≤ b' → chainLen h q b' = chainLen h q b := by
  intro b
  induction b with
  | zero => intro q b' hlt _; omega
  | succ n ih =>
    intro q b' hlt hle
    cases b' with
    | zero => omega
    | succ n' =>
      cases hm : histMem h q with
      | false =>
        show (if histMem h q then chainLen h (sub1 q) n' + 1 else 0) =
          (if histMem h q then chainLen h (sub1 q) n + 1 else 0)
        rw [hm]
        rfl
      | true =>
        have hred : chainLen h q (n + 1) = chainLen h (sub1 q) n + 1 := by
          show (if histMem h q then chainLen h (sub1 q) n + 1 else 0) = _
          rw [hm]
          rfl
        have hred2 : chainLen h q (n' + 1) = chainLen h (sub1 q) n' + 1 := by
          show (if histMem h q then chainLen h (sub1 q) n' + 1 else 0) = _
          rw [hm]
          rfl
        rw [hred] at hlt ⊢
        rw [hred2, ih (sub1 q) n' (by omega) (by omega)]

theorem chainLen_mem (h : Hist) : ∀ (b q i : Nat),
    i < chainLen h q b → histMem h (subIter q i) = true := by
  intro b
  induction b with
  | zero => intro q i hi; simp [chainLen] at hi
  | succ n ih =>
    intro q i hi
    cases hm : histMem h q with
    | false => rw [show chainLen h q (n + 1) = 0 by simp [chainLen, hm]] at hi; omega
    | true =>
      have hred : chainLen h q (n + 1) = chainLen h (sub1 q) n + 1 := by
        simp [chainLen, hm]
      rw [hred] at hi
      cases i with
      | zero => exact hm
      | succ i' =>
        rw [← subIter_sub1]
        exact ih (sub1 q) i' (by omega)

theorem chainLen_eq_zero_mem (h : Hist) (q b : Nat) (hb : 0 < b)
    (hz : chainLen h q b = 0) : histMem h q = false := by
  cases b with
  | zero => omega
  | succ n =>
    cases hm : histMem h q with
    | false => rfl
    | true => simp [chainLen, hm] at hz

theorem histMem_false_find (h : Hist) (q : Nat) (hm : histMem h q = false) :
    histFind h q = none := by
  unfold histMem at hm
  cases hf : histFind h q
  · rfl
  · rw [hf] at hm; simp at hm

theorem histMem_mem_keys (h : Hist) (k : Nat) (hm : histMem h k = true) :
    k ∈ histKeys h := by
  unfold histMem at hm
  cases hf : histFind h k with
  | none => rw [hf] at hm; simp at hm
  | some bl => exact (histFind_mem h k bl hf).2

theorem histErase_length_lt (h : Hist) (q : Nat) (hm : histMem h q = true) :
    (histErase h q).length < h.length := by
  unfold histMem at hm
  cases hf : histFind h q with
  | none => rw [hf] at hm; simp at hm
  | some bl =>
    have hmem := (histFind_mem h q bl hf).1
    exact List.length_filter_lt_length_iff_exists.mpr
      ⟨(q, bl), hmem, by simp⟩

theorem chainLen_lt (h : Hist) (q : Nat) (hq : q < U64) (hlen : h.length < U64) :
    chainLen h q U64 < U64 := by
  by_contra hge
  push_neg at hge
  have heq : chainLen h q U64 = U64 := Nat.le_antisymm (chainLen_le h U64 q) hge
  have hmem : ∀ i, i < U64 → histMem h (subIter q i) = true := by
    intro i hi
    exact chainLen_mem h U64 q i (by omega)
  have hnodup : ((List.range U64).map (subIter q)).Nodup := by
    refine List.Nodup.map_on ?_ (List.nodup_range _)
    intro x hx y hy hxy
    rcases Nat.lt_trichotomy x y with hlt | heq2 | hgt
    · exact absurd hxy (subIter_ne q hq x y hlt (List.mem_range.mp hy))
    · exact heq2
    · exact absurd hxy.symm (subIter_ne q hq y x hgt (List.mem_range.mp hx))
  have hsub : ((List.range U64).map (subIter q)).toFinset ⊆ (histKeys h).toFinset := by
    intro x hx
    rw [List.mem_toFinset] at hx ⊢
    rcases List.mem_map.mp hx with ⟨i, hi, hix⟩
    rw [← hix]
    exact histMem_mem_keys h _ (hmem i (List.mem_range.mp hi))
  have h1 : ((List.range U64).map (subIter q)).toFinset.card = U64 := by
    rw [List.toFinset_card_of_nodup hnodup]
    simp
  have h2 := Finset.card_le_card hsub
  have h3 : (histKeys h).toFinset.card ≤ (histKeys h).length :=
    List.toFinset_card_le _
  have h4 : (histKeys h).length = h.length := List.length_map _ _
  omega

theorem histMem_insert_erase (h : Hist) (q : Nat) (v : BlockInfo)
    (hm : histMem h q = true) (k : Nat) :
    histMem (histInsert (histErase h q) q v) k = histMem h k := by
  rw [histMem_insert, histMem_erase]
  by_cases hk : k = q
  · subst hk; simp [hm]
  · have h1 : (k == q) = false := by simp [hk]
    have h2 : (k != q) = true := by simp [hk]
    rw [h1, h2]
    simp

theorem tgh_ok_echo (p : Provider) (hecho : EchoProvider p) (s : NodeState)
    (n : Nat) (hn : n < U64) (bl : BlockInfo) (s1 : NodeState)
    (htgh : throttledGetHeader p s (some n) = (.ok bl, s1)) : bl.num = n := by
  cases hp : p s.calls (some n) with
  | err => simp [throttledGetHeader, hp] at htgh
  | nilHeader => simp [throttledGetHeader, hp] at htgh
  | ok hh =>
    simp only [throttledGetHeader, hp, Prod.mk.injEq, Except.ok.injEq] at htgh
    obtain ⟨hbl, _⟩ := htgh
    rw [← hbl]
    exact hecho s.calls n hh hn hp

theorem walk_exits (p : Provider) (hecho : EchoProvider p) :
    ∀ (k fuel : Nat) (s : NodeState) (cur : BlockInfo) (q r : Nat),
    HistWF s.chainHistory → s.chainHistory.length < U64 → q < U64 →
    chainLen s.chainHistory q U64 ≤ k → k < fuel →
    (walk p fuel s cur (histFind s.chainHistory q) r).2.2 = true := by
  intro k
  induction k with
  | zero =>
    intro fuel s cur q r hwf hlen hq hcl hfuel
    have hz : chainLen s.chainHistory q U64 = 0 := Nat.le_zero.mp hcl
    rw [histMem_false_find _ _ (chainLen_eq_zero_mem _ _ _ U64_pos hz)]
    cases fuel with
    | zero => omega
    | succ f => rfl
  | succ m ih =>
    intro fuel s cur q r hwf hlen hq hcl hfuel
    cases fuel with
    | zero => omega
    | succ f =>
      cases hfind : histFind s.chainHistory q with
      | none => rfl
      | some pin =>
        have hpin : pin.num = q := histFind_num _ _ _ hwf.2.1 hfind
        by_cases hh : pin.hash = cur.pHash
        · simp only [walk, if_pos hh]
        · have hmq : histMem s.chainHistory q = true := by
            unfold histMem; rw [hfind]; rfl
          rcases htgh : throttledGetHeader p
              { s with chainHistory := histErase s.chainHistory pin.num }
              (some pin.num) with ⟨res, s2⟩
          cases res with
          | error e => simp only [walk, if_neg hh, htgh]
          | ok cur2 =>
            have hnum : cur2.num = pin.num :=
              tgh_ok_echo p hecho _ pin.num (hpin ▸ hq) cur2 s2 htgh
            obtain ⟨hchain, _⟩ := tgh_ok p _ (some pin.num) cur2 s2 htgh
            have hchain2 : s2.chainHistory =
                histInsert (histErase s.chainHistory q) q cur2 := by
              rw [hchain]
              simp only [hnum, hpin]
            have hnumq : cur2.num = q := hnum.trans hpin
            have hwf2 : HistWF s2.chainHistory := by
              rw [hchain2]
              exact HistWF_insert _ _ _ (HistWF_erase _ _ hwf) hnumq hq
            have hlen2 : s2.chainHistory.length < U64 := by
              rw [hchain2]
              have h1 : (histInsert (histErase s.chainHistory q) q cur2).length ≤
                  (histErase s.chainHistory q).length + 1 := by
                unfold histInsert
                simp only [List.length_cons]
                exact Nat.succ_le_succ (List.length_filter_le _ _)
              have h2 : (histErase s.chainHistory q).length < s.chainHistory.length :=
                histErase_length_lt _ _ hmq
              omega
            have hdom : ∀ k', histMem s2.chainHistory k' = histMem s.chainHistory k' := by
              intro k'
              rw [hchain2]
              exact histMem_insert_erase _ _ _ hmq k'
            have hq2 : sub1 q < U64 := sub1_lt q hq
            have hcl2 : chainLen s2.chainHistory (sub1 q) U64 ≤ m := by
              rw [chainLen_congr s2.chainHistory s.chainHistory hdom U64 (sub1 q)]
              have hstep : chainLen s.chainHistory q U64 =
                  chainLen s.chainHistory (sub1 q) (U64 - 1) + 1 := by
                conv_lhs => rw [U64_eq]
                show (if histMem s.chainHistory q = true then
                    chainLen s.chainHistory (sub1 q) (U64 - 1) + 1 else 0) =
                  chainLen s.chainHistory (sub1 q) (U64 - 1) + 1
                rw [if_pos hmq]
              by_cases hcc : chainLen s.chainHistory (sub1 q) (U64 - 1) < U64 - 1
              · rw [chainLen_stabilize s.chainHistory (U64 - 1) (sub1 q) U64 hcc
                  (by omega)]
                omega
              · have hle := chainLen_le s.chainHistory (U64 - 1) (sub1 q)
                have hcl3 := chainLen_lt s.chainHistory (sub1 q) hq2 hlen
                omega
            have hrec := ih f s2 cur2 (sub1 q) (r + 1) hwf2 hlen2 hq2 hcl2 (by omega)
            simp only [walk, if_neg hh, htgh]
            have hqq : sub1 cur2.num = sub1 q := by rw [hnumq]
            rw [← hqq] at hrec
            exact hrec

/-- C3: given a provider that echoes the requested height (every successfully
fetched header carries the height that was requested), the reorg-ancestry
walk loop of `fetchHeader` always reaches one of its own exits within a fuel
budget of `2 ^ 64` steps, for every starting cache state — each iteration
moves the examined boundary strictly down (modulo the one possible `uint64`
wraparound at height 0, which the finiteness of the cache rules out
repeating), and the cache is finite: a `uint64`-keyed Go map holds fewer
than `2 ^ 64` entries, which is the `length` hypothesis. -/
theorem claim_C3 (p : Provider) (s : NodeState) (num : Option Nat)
    (hecho : EchoProvider p) (hwf : HistWF s.chainHistory)
    (hlen : s.chainHistory.length + 1 < U64) :
    (fetchHeader p U64 s num).walkExited = true := by
  rcases htgh : throttledGetHeader p s num with ⟨res, s1⟩
  cases res with
  | error e => simp [fetchHeader, htgh]
  | ok hdr =>
    have hwf1 : HistWF s1.chainHistory := by
      have := HistWF_tgh p s num hwf
      rw [htgh] at this
      exact this
    obtain ⟨hchain, _⟩ := tgh_ok p s num hdr s1 htgh
    have hlen1 : s1.chainHistory.length < U64 := by
      rw [hchain]
      unfold histInsert
      simp only [List.length_cons]
      have := List.length_filter_le (fun pr => pr.1 != hdr.num) s.chainHistory
      omega
    have hnum : hdr.num < U64 := by
      cases hp : p s.calls num with
      | err => simp [throttledGetHeader, hp] at htgh
      | nilHeader => simp [throttledGetHeader, hp] at htgh
      | ok hh =>
        simp only [throttledGetHeader, hp, Prod.mk.injEq, Except.ok.injEq] at htgh
        obtain ⟨hbl, _⟩ := htgh
        rw [← hbl]
        exact Nat.mod_lt _ U64_pos
    have hq : sub1 hdr.num < U64 := sub1_lt _ hnum
    cases hfind : histFind s1.chainHistory (sub1 hdr.num) with
    | none => simp [fetchHeader, htgh, hfind]
    | some pin =>
      have hexits := walk_exits p hecho
        (chainLen s1.chainHistory (sub1 hdr.num) U64) U64 s1 hdr (sub1 hdr.num) 0
        hwf1 hlen1 hq (Nat.le_refl _)
        (chainLen_lt s1.chainHistory (sub1 hdr.num) hq hlen1)
      rw [hfind] at hexits
      simp only [fetchHeader, htgh, hfind]
      exact hexits

/-- A provider that echoes every requested height (growing hash values). -/
def c3Provider : Provider := fun _ r =>
  match r with
  | some n => .ok ⟨n, n + 1, n + 2⟩
  | none => .ok ⟨0, 1, 2⟩

theorem c3Provider_echo : EchoProvider c3Provider := by
  intro i n h hn hp
  simp only [c3Provider] at hp
  have hh : h = ⟨n, n + 1, n + 2⟩ := by
    cases hp
    rfl
  rw [hh]
  exact Nat.mod_eq_of_lt hn

theorem claim_C3_witness :
    (fetchHeader c3Provider U64 c5State (some 5)).walkExited = true :=
  claim_C3 c3Provider c5State (some 5) c3Provider_echo (by decide) (by decide)

end NodeMonitor
